import Mathlib

/-!
Shallow embedding of the client-side encryption core of the shared-password-manager
repository: the Key Store (`getEncryptionKey`) and the Cipher (`encrypt`, `decrypt`)
from the encryption module, together with models of the platform primitives they
call: `localStorage` (durable per-profile storage), `btoa`/`atob` (binary-string
base64, WHATWG forgiving-base64 semantics), `crypto.getRandomValues`,
`crypto.subtle` AES-GCM (abstract authenticated encryption contract), and
`TextEncoder`/`TextDecoder` (abstract UTF-8 codec contract, replacement-character
decoding).

Bytes are `Nat` values kept below 256. Side effects are threaded through an
explicit `World` state; a thrown JavaScript exception is an `Except` error value
carrying the state at the moment of the throw.
-/

set_option linter.unusedVariables false

/-! ### Base64: `btoa` and `atob` -/

/-- Standard base64 alphabet, as used by `btoa`/`atob`. -/
def b64chars : List Char :=
  ['A','B','C','D','E','F','G','H','I','J','K','L','M','N','O','P',
   'Q','R','S','T','U','V','W','X','Y','Z','a','b','c','d','e','f',
   'g','h','i','j','k','l','m','n','o','p','q','r','s','t','u','v',
   'w','x','y','z','0','1','2','3','4','5','6','7','8','9','+','/']

/-- Character of the base64 alphabet at a given 6-bit index. -/
def b64char (n : Nat) : Char := b64chars.getD n 'A'

/-- Index of a character in a character list, if present. -/
def charIdx (c : Char) : List Char → Option Nat
  | [] => none
  | d :: r => if c = d then some 0 else (charIdx c r).map (· + 1)

/-- Index of a character in the base64 alphabet, if it belongs to it. -/
def b64indexO (c : Char) : Option Nat := charIdx c b64chars

/-- Unpadded base64 encoding of a byte list, three bytes to four characters. -/
def btoaCore : List Nat → List Char
  | [] => []
  | [a] => [b64char (a / 4), b64char (a % 4 * 16)]
  | [a, b] => [b64char (a / 4), b64char (a % 4 * 16 + b / 16), b64char (b % 16 * 4)]
  | a :: b :: c :: rest =>
    b64char (a / 4) :: b64char (a % 4 * 16 + b / 16) ::
    b64char (b % 16 * 4 + c / 64) :: b64char (c % 64) :: btoaCore rest

/-- Number of `=` padding characters `btoa` appends. -/
def b64padCount : List Nat → Nat
  | [] => 0
  | [_] => 2
  | [_, _] => 1
  | _ :: _ :: _ :: rest => b64padCount rest

/-- Characters of the padded base64 encoding of a byte list. -/
def btoaBytes (l : List Nat) : List Char :=
  btoaCore l ++ List.replicate (b64padCount l) '='

/-- Model of `btoa` applied to a binary string holding the given bytes. -/
def btoa (l : List Nat) : String := String.mk (btoaBytes l)

/-- Base64 character stream decoding: four characters to three bytes, with
incomplete trailing chunks of two or three characters contributing one or two
bytes (excess bits discarded, as in WHATWG forgiving-base64), and a trailing
chunk of one character, or any character outside the alphabet, failing. -/
def decodeChars : List Char → Option (List Nat)
  | [] => some []
  | [w, x] =>
    match b64indexO w, b64indexO x with
    | some i, some j => some [i * 4 + j / 16]
    | _, _ => none
  | [w, x, y] =>
    match b64indexO w, b64indexO x, b64indexO y with
    | some i, some j, some k => some [i * 4 + j / 16, j % 16 * 16 + k / 4]
    | _, _, _ => none
  | w :: x :: y :: z :: rest =>
    match b64indexO w, b64indexO x, b64indexO y, b64indexO z, decodeChars rest with
    | some i, some j, some k, some l, some bs =>
      some ((i * 4 + j / 16) :: (j % 16 * 16 + k / 4) :: (k % 4 * 64 + l) :: bs)
    | _, _, _, _, _ => none
  | [_] => none

/-- Removal of up to two trailing `=` padding characters, performed only when the
input length is a multiple of four (WHATWG forgiving-base64 step 2). -/
def stripPad (cs : List Char) : List Char :=
  if cs.length % 4 = 0 then
    if cs.reverse.take 2 = ['=', '='] then (cs.reverse.drop 2).reverse
    else if cs.reverse.take 1 = ['='] then (cs.reverse.drop 1).reverse
    else cs
  else cs

/-- ASCII whitespace in the WHATWG sense: TAB, LF, FF, CR and SPACE. -/
def isB64Whitespace (c : Char) : Bool :=
  c == '\x09' || c == '\x0a' || c == '\x0c' || c == '\x0d' || c == ' '

/-- Model of `atob` (WHATWG forgiving-base64 decode): remove all ASCII
whitespace, then remove padding, then decode; `some` of the decoded bytes, or
`none` where the real `atob` throws `InvalidCharacterError`. -/
def atobO (s : String) : Option (List Nat) :=
  decodeChars (stripPad (s.data.filter (fun c => !(isB64Whitespace c))))

/-! ### Platform model -/

/-- JavaScript exceptions distinguished by the model: an unavailable platform
primitive, `atob`'s `InvalidCharacterError`, `crypto.subtle.decrypt`'s
`OperationError` on authentication failure, and `crypto.subtle.importKey`'s
`DataError` on key material of invalid length. -/
inductive JSError
  | platformUnavailable
  | invalidCharacter
  | operationError
  | dataError
deriving DecidableEq, Repr

/-- Browser-profile world state: the `localStorage` key-value store, an infinite
tape of random bytes with a cursor (`crypto.getRandomValues` and AES key
generation consume it left to right), and availability flags for durable storage
and the cryptographic backend. -/
structure World where
  store : String → Option String
  tape : Nat → Nat
  pos : Nat
  storageOk : Bool
  cryptoOk : Bool

/-- Outcome of an effectful step: a value or a thrown exception, each with the
world at that point. -/
def JSResult (α : Type) : Type := Except (JSError × World) (α × World)

/-- Bytes read from the random tape starting at a given offset. -/
def drawBytes (tape : Nat → Nat) (start n : Nat) : List Nat :=
  (List.range n).map (fun i => tape (start + i) % 256)

/-- Model of `localStorage.getItem`. -/
def lsGetItem (name : String) (w : World) : JSResult (Option String) :=
  if w.storageOk then .ok (w.store name, w) else .error (.platformUnavailable, w)

/-- Model of `localStorage.setItem`. -/
def lsSetItem (name v : String) (w : World) : JSResult Unit :=
  if w.storageOk then
    .ok ((), { w with store := fun n => if n = name then some v else w.store n })
  else .error (.platformUnavailable, w)

/-- Model of `crypto.getRandomValues` on a fresh `Uint8Array` of length `n`. -/
def getRandomValues (n : Nat) (w : World) : JSResult (List Nat) :=
  if w.cryptoOk then .ok (drawBytes w.tape w.pos n, { w with pos := w.pos + n })
  else .error (.platformUnavailable, w)

/-- Model of `atob` as an effectful step (throws `InvalidCharacterError` on
input that is not syntactically valid base64). -/
def atobE (s : String) (w : World) : JSResult (List Nat) :=
  match atobO s with
  | some bs => .ok (bs, w)
  | none => .error (.invalidCharacter, w)

/-- Model of `crypto.subtle.generateKey` for AES-GCM 256 followed by
`crypto.subtle.exportKey 'raw'`: 32 fresh random bytes of raw key material. -/
def generateExportKey (w : World) : JSResult (List Nat) := getRandomValues 32 w

/-- Model of `crypto.subtle.importKey 'raw'` for AES: key material is its raw
byte sequence, which must be 16, 24 or 32 bytes long (the `length` member of
the algorithm dictionary is ignored on import); other lengths throw
`DataError`. -/
def importKeyRaw (data : List Nat) (w : World) : JSResult (List Nat) :=
  if w.cryptoOk then
    if data.length = 16 ∨ data.length = 24 ∨ data.length = 32 then .ok (data, w)
    else .error (.dataError, w)
  else .error (.platformUnavailable, w)

/-- Contract of `crypto.subtle` AES-GCM with 256-bit keys, 12-byte nonces and no
associated data, as the source configures it. `enc key iv msg` is the ciphertext
concatenated with its integrity tag; `dec` is `some` plaintext or `none` where
the platform throws `OperationError`. The fields state what the Web Crypto API
guarantees of this primitive: decryption inverts encryption under the same key
and nonce; decryption under a different key fails (the idealized authentication
guarantee of the AEAD); ciphertext is at least sixteen bytes (the tag) longer
than the message; inputs shorter than the tag never authenticate; and ciphertext
consists of bytes. -/
structure SubtleAES where
  enc : List Nat → List Nat → List Nat → List Nat
  dec : List Nat → List Nat → List Nat → Option (List Nat)
  dec_enc : ∀ key iv msg, key.length = 32 → iv.length = 12 →
    dec key iv (enc key iv msg) = some msg
  auth_key : ∀ key key' iv msg, key.length = 32 → key'.length = 32 →
    iv.length = 12 → key ≠ key' → dec key' iv (enc key iv msg) = none
  enc_len : ∀ key iv msg, key.length = 32 → iv.length = 12 →
    msg.length + 16 ≤ (enc key iv msg).length
  dec_short : ∀ key iv c, c.length < 16 → dec key iv c = none
  enc_bytes : ∀ key iv msg, (∀ b ∈ key, b < 256) → (∀ b ∈ iv, b < 256) →
    (∀ b ∈ msg, b < 256) → ∀ b ∈ enc key iv msg, b < 256

/-- Contract of `TextEncoder`/`TextDecoder` for UTF-8: encoding yields at least
one byte per character, all below 256; decoding is total (the default
`TextDecoder` replaces malformed sequences with U+FFFD instead of throwing) and
inverts encoding. -/
structure TextCodec where
  encode : String → List Nat
  decode : List Nat → String
  decode_encode : ∀ s, decode (encode s) = s
  encode_len : ∀ s, s.length ≤ (encode s).length
  encode_bytes : ∀ s, ∀ b ∈ encode s, b < 256

/-! ### The Key Store and the Cipher -/

/-- Fixed storage slot name under which the key material is persisted. -/
def ENCRYPTION_KEY_NAME : String := "pm_encryption_key"

/-- Generation path of `getEncryptionKey`: generate fresh 256-bit key material,
export it, and persist its base64 encoding under the fixed slot name. -/
def generateAndStoreKey (w : World) : JSResult (List Nat) :=
  match generateExportKey w with
  | .error e => .error e
  | .ok (raw, w₂) =>
    match lsSetItem ENCRYPTION_KEY_NAME (btoa raw) w₂ with
    | .error e => .error e
    | .ok (_, w₃) => .ok (raw, w₃)

/-- Model of `getEncryptionKey`: read the persisted slot; if its value is
truthy in the JavaScript sense — present and not the empty string — decode
and import it; otherwise (absent, or present but empty, since `if (keyData)`
is falsy on `""`) take the generation path. -/
def getEncryptionKey (w : World) : JSResult (List Nat) :=
  match lsGetItem ENCRYPTION_KEY_NAME w with
  | .error e => .error e
  | .ok (some keyData, w₁) =>
    if keyData = "" then generateAndStoreKey w₁
    else
      match atobE keyData w₁ with
      | .error e => .error e
      | .ok (keyBuffer, w₂) => importKeyRaw keyBuffer w₂
  | .ok (none, w₁) => generateAndStoreKey w₁

/-- Model of `crypto.subtle.encrypt` with AES-GCM parameters. -/
def subtleEncrypt (A : SubtleAES) (key iv data : List Nat) (w : World) :
    JSResult (List Nat) :=
  if w.cryptoOk then .ok (A.enc key iv data, w) else .error (.platformUnavailable, w)

/-- Model of `crypto.subtle.decrypt` with AES-GCM parameters (throws
`OperationError` when authentication fails). -/
def subtleDecrypt (A : SubtleAES) (key iv data : List Nat) (w : World) :
    JSResult (List Nat) :=
  if w.cryptoOk then
    match A.dec key iv data with
    | some pt => .ok (pt, w)
    | none => .error (.operationError, w)
  else .error (.platformUnavailable, w)

/-- Model of `encrypt`: empty plaintext short-circuits to the empty string;
otherwise obtain the key, draw a fresh 12-byte nonce, UTF-8-encode the
plaintext, AEAD-encrypt, and return the base64 encoding of nonce ++ ciphertext.
No failure is caught here: exceptions propagate. -/
def encrypt (A : SubtleAES) (T : TextCodec) (plaintext : String) (w : World) :
    JSResult String :=
  if plaintext = "" then .ok ("", w)
  else
    match getEncryptionKey w with
    | .error e => .error e
    | .ok (key, w₁) =>
      match getRandomValues 12 w₁ with
      | .error e => .error e
      | .ok (iv, w₂) =>
        match subtleEncrypt A key iv (T.encode plaintext) w₂ with
        | .error e => .error e
        | .ok (ct, w₃) => .ok (btoa (iv ++ ct), w₃)

/-- Body of `decrypt`'s `try` block: obtain the key, base64-decode the envelope,
split nonce and ciphertext at byte 12, AEAD-decrypt, UTF-8-decode. -/
def decryptTry (A : SubtleAES) (T : TextCodec) (ciphertext : String) (w : World) :
    JSResult String :=
  match getEncryptionKey w with
  | .error e => .error e
  | .ok (key, w₁) =>
    match atobE ciphertext w₁ with
    | .error e => .error e
    | .ok (combined, w₂) =>
      match subtleDecrypt A key (combined.take 12) (combined.drop 12) w₂ with
      | .error e => .error e
      | .ok (pt, w₃) => .ok (T.decode pt, w₃)

/-- Fixed marker string `decrypt` returns on any caught failure. -/
def decryptionFailedSentinel : String := "[Decryption failed]"

/-- Model of `decrypt`: empty input short-circuits to the empty string;
otherwise run the `try` body, and convert any exception thrown inside it —
whatever its kind — into the sentinel marker (the source's catch-all `catch`). -/
def decrypt (A : SubtleAES) (T : TextCodec) (ciphertext : String) (w : World) :
    String × World :=
  if ciphertext = "" then ("", w)
  else
    match decryptTry A T ciphertext w with
    | .ok r => r
    | .error (_, w') => (decryptionFailedSentinel, w')

/-! ### Derived state predicates and helpers -/

/-- The persisted key slot, when occupied, holds the base64 encoding of 32-byte
raw key material. -/
def validSlot (w : World) : Prop :=
  ∀ s, w.store ENCRYPTION_KEY_NAME = some s →
    ∃ k, k.length = 32 ∧ (∀ b ∈ k, b < 256) ∧ s = btoa k

/-- World an effectful step leaves behind, whether it returned or threw. -/
def finalWorld {α : Type} : JSResult α → World
  | .ok (_, w) => w
  | .error (_, w) => w

/-- Value-or-exception outcome of an effectful step, with the world forgotten. -/
def resultVal {α : Type} : JSResult α → Except JSError α
  | .ok (a, _) => .ok a
  | .error (e, _) => .error e

/-! ### Executable instances of the platform contracts

Used to evaluate the abstract development on concrete inputs. They model the
behavioural contract only, not cryptographic strength. -/

/-- Executable instance of the `SubtleAES` contract: the "ciphertext" is the
message followed by the 44 bytes of key and nonce, and decryption checks that
trailer, which makes decryption under any other key fail. -/
def sampleAES : SubtleAES where
  enc key iv msg := msg ++ key ++ iv
  dec key iv c :=
    if c.length ≥ 44 ∧ c.drop (c.length - 44) = key ++ iv then
      some (c.take (c.length - 44))
    else none
  dec_enc := by
    intro key iv msg hk hiv
    dsimp only
    have hlen : (msg ++ key ++ iv).length = msg.length + 44 := by
      simp only [List.length_append, hk, hiv]
    rw [hlen]
    have h44 : msg.length + 44 - 44 = msg.length := by omega
    rw [h44]
    have hd : (msg ++ key ++ iv).drop msg.length = key ++ iv := by
      simp [List.drop_append]
    have ht : (msg ++ key ++ iv).take msg.length = msg := by
      simp [List.take_append]
    rw [if_pos ⟨by omega, hd⟩, ht]
  auth_key := by
    intro key key' iv msg hk hk' hiv hne
    dsimp only
    have hlen : (msg ++ key ++ iv).length = msg.length + 44 := by
      simp only [List.length_append, hk, hiv]
    rw [hlen]
    have h44 : msg.length + 44 - 44 = msg.length := by omega
    rw [h44]
    have hd : (msg ++ key ++ iv).drop msg.length = key ++ iv := by
      simp [List.drop_append]
    rw [if_neg]
    rintro ⟨-, hcontra⟩
    rw [hd] at hcontra
    exact hne ((List.append_inj hcontra (by rw [hk, hk'])).1)
  enc_len := by
    intro key iv msg hk hiv
    dsimp only
    simp only [List.length_append, hk, hiv]
    omega
  dec_short := by
    intro key iv c h
    dsimp only
    rw [if_neg]
    rintro ⟨h44, -⟩
    omega
  enc_bytes := by
    intro key iv msg hkb hivb hmb b hb
    dsimp only at hb
    simp only [List.append_assoc, List.mem_append] at hb
    rcases hb with hb | hb | hb
    · exact hmb b hb
    · exact hkb b hb
    · exact hivb b hb

/-- Codepoint-to-character step of the executable codec: reject invalid
codepoints with the replacement character U+FFFD. -/
def chunkChar (n : Nat) : Char := if h : n.isValidChar then Char.ofNat n else '�'

/-- Four-byte little-endian encoding of one character. -/
def sampleEncodeChar (c : Char) : List Nat :=
  [c.toNat % 256, c.toNat / 256 % 256, c.toNat / 65536 % 256, 0]

/-- Encoding of a character list, four bytes per character. -/
def sampleEncodeList : List Char → List Nat
  | [] => []
  | c :: r => sampleEncodeChar c ++ sampleEncodeList r

/-- Decoding of a byte list in four-byte chunks; an incomplete trailing chunk
decodes to the replacement character, U+FFFD, mirroring how a lone invalid byte
decodes under a non-fatal `TextDecoder`. -/
def sampleDecodeChars : List Nat → List Char
  | a :: b :: c :: d :: rest =>
    chunkChar (a + 256 * b + 65536 * c + 16777216 * d) :: sampleDecodeChars rest
  | [] => []
  | _ => ['�']

/-- Executable instance of the `TextCodec` contract. -/
def sampleCodec : TextCodec where
  encode s := sampleEncodeList s.data
  decode l := String.mk (sampleDecodeChars l)
  decode_encode := by
    intro s
    have key : ∀ cs : List Char, sampleDecodeChars (sampleEncodeList cs) = cs := by
      intro cs
      induction cs with
      | nil => rfl
      | cons c r ih =>
        have hlt : c.toNat < 1114112 := by
          rcases c.valid with h | h
          · exact Nat.lt_trans h (by decide)
          · exact h.2
        have harith : c.toNat % 256 + 256 * (c.toNat / 256 % 256) +
            65536 * (c.toNat / 65536 % 256) + 16777216 * 0 = c.toNat := by omega
        have hvalid : (c.toNat).isValidChar := c.valid
        have hchunk : chunkChar c.toNat = c := by
          simp [chunkChar, hvalid, Char.ofNat_toNat]
        simp only [sampleEncodeList, sampleEncodeChar, List.cons_append, List.append_eq,
          List.nil_append, sampleDecodeChars, harith, hchunk, ih]
    cases s with
    | mk data =>
      dsimp only
      rw [key data]
  encode_len := by
    intro s
    dsimp only
    have key : ∀ cs : List Char, cs.length ≤ (sampleEncodeList cs).length := by
      intro cs
      induction cs with
      | nil => simp [sampleEncodeList]
      | cons c r ih =>
        simp only [sampleEncodeList, sampleEncodeChar, List.length_append, List.length_cons]
        simp at ih ⊢
        omega
    exact le_trans (le_of_eq rfl) (key s.data)
  encode_bytes := by
    intro s
    dsimp only
    have key : ∀ cs : List Char, ∀ b ∈ sampleEncodeList cs, b < 256 := by
      intro cs
      induction cs with
      | nil => simp [sampleEncodeList]
      | cons c r ih =>
        intro b hb
        simp only [sampleEncodeList, List.mem_append] at hb
        rcases hb with hb | hb
        · simp only [sampleEncodeChar, List.mem_cons, List.not_mem_nil, or_false] at hb
          rcases hb with h | h | h | h <;> subst h <;> omega
        · exact ih b hb
    exact key s.data

/-! ### Concrete worlds and inputs for evaluation -/

/-- World with empty storage, the identity random tape, and all platform
primitives available. -/
def w0 : World :=
  { store := fun _ => none, tape := fun i => i, pos := 0,
    storageOk := true, cryptoOk := true }

/-- World `w0` with durable storage unavailable. -/
def wNoStorage : World := { w0 with storageOk := false }

/-- A fixed 32-byte key. -/
def k0 : List Nat := List.replicate 32 1

/-- A second, different 32-byte key. -/
def k1 : List Nat := List.replicate 32 3

/-- A fixed 12-byte nonce. -/
def iv0 : List Nat := List.replicate 12 2

/-- World with key `k0` already persisted under the fixed slot name. -/
def wKeyed : World :=
  { w0 with store := fun n => if n = ENCRYPTION_KEY_NAME then some (btoa k0) else none }

/-- World with key `k1` already persisted under the fixed slot name. -/
def wKeyed1 : World :=
  { w0 with store := fun n => if n = ENCRYPTION_KEY_NAME then some (btoa k1) else none }

/-- World whose key slot is occupied by the empty string — a stored value that
is falsy to the source's `if (keyData)` test. -/
def wEmptySlot : World :=
  { w0 with store := fun n => if n = ENCRYPTION_KEY_NAME then some "" else none }

/-- Envelope whose authenticated payload decrypts, under `sampleAES` and key
`k0`, to the single byte 255 — a byte sequence no string encodes to. -/
def env255 : String := btoa (iv0 ++ sampleAES.enc k0 iv0 [255])

/-! ### Spec claims under test, as stated

These two propositions transcribe spec claims that turn out to be false of the
code; each is later refuted and replaced by an amended theorem. -/

/-- Claim: every decrypt-time failure — including authenticated payloads that
are not valid UTF-8 (no string encodes to them) — is caught and yields the
sentinel. -/
def decryptAllFailuresSentinelClaim : Prop :=
  ∀ (A : SubtleAES) (T : TextCodec) (c : String) (w : World),
    w.storageOk = true → w.cryptoOk = true → validSlot w → c ≠ "" →
    (atobO c = none → (decrypt A T c w).1 = decryptionFailedSentinel) ∧
    (∀ bs, atobO c = some bs → bs.length < 12 →
      (decrypt A T c w).1 = decryptionFailedSentinel) ∧
    (∀ key w₁ bs pt, getEncryptionKey w = .ok (key, w₁) → atobO c = some bs →
      A.dec key (bs.take 12) (bs.drop 12) = some pt →
      (¬ ∃ s, T.encode s = pt) →
      (decrypt A T c w).1 = decryptionFailedSentinel)

/-- Claim: when a platform primitive is unavailable, both `encrypt` and
`decrypt` surface a propagating platform error — in particular `decrypt` does
not convert such a failure into the sentinel. -/
def platformErrorsPropagateClaim : Prop :=
  ∀ (A : SubtleAES) (T : TextCodec) (p c : String) (w : World),
    w.storageOk = false → p ≠ "" → c ≠ "" →
    encrypt A T p w = .error (.platformUnavailable, w) ∧
    (decrypt A T c w).1 ≠ decryptionFailedSentinel

/-! ### Lemmas on base64 -/

theorem b64_roundtrip_idx : ∀ n, n < 64 → b64indexO (b64char n) = some n := by decide

theorem b64char_ne_pad : ∀ n, n < 64 → b64char n ≠ '=' := by decide

theorem btoaCore_ne_pad (l : List Nat) (hb : ∀ b ∈ l, b < 256) :
    ∀ c ∈ btoaCore l, c ≠ '=' := by
  induction l using btoaCore.induct with
  | case1 => simp [btoaCore]
  | case2 a =>
    have ha : a < 256 := hb a (by simp)
    intro c hc
    simp only [btoaCore, List.mem_cons, List.not_mem_nil, or_false] at hc
    rcases hc with h | h <;> subst h <;> exact b64char_ne_pad _ (by omega)
  | case3 a b =>
    have ha : a < 256 := hb a (by simp)
    have hbb : b < 256 := hb b (by simp)
    intro c hc
    simp only [btoaCore, List.mem_cons, List.not_mem_nil, or_false] at hc
    rcases hc with h | h | h <;> subst h <;> exact b64char_ne_pad _ (by omega)
  | case4 a b c rest ih =>
    have ha : a < 256 := hb a (by simp)
    have hbb : b < 256 := hb b (by simp)
    have hcc : c < 256 := hb c (by simp)
    have hrest : ∀ x ∈ rest, x < 256 := fun x hx => hb x (by simp [hx])
    intro d hd
    simp only [btoaCore, List.mem_cons] at hd
    rcases hd with h | h | h | h | h
    · subst h; exact b64char_ne_pad _ (by omega)
    · subst h; exact b64char_ne_pad _ (by omega)
    · subst h; exact b64char_ne_pad _ (by omega)
    · subst h; exact b64char_ne_pad _ (by omega)
    · exact ih hrest d h

theorem btoa_len_mod4 (l : List Nat) :
    ((btoaCore l).length + b64padCount l) % 4 = 0 := by
  induction l using btoaCore.induct <;> simp_all [btoaCore, b64padCount] <;> omega

theorem b64padCount_le (l : List Nat) : b64padCount l ≤ 2 := by
  induction l using b64padCount.induct <;> simp_all [b64padCount]

theorem stripPad_append_pad (core : List Char) (p : Nat) (hp : p ≤ 2)
    (hlen : (core.length + p) % 4 = 0) (hpad : ∀ c ∈ core, c ≠ '=') :
    stripPad (core ++ List.replicate p '=') = core := by
  unfold stripPad
  rw [if_pos (by simp only [List.length_append, List.length_replicate]; omega)]
  rw [List.reverse_append, List.reverse_replicate]
  interval_cases p
  · simp only [List.replicate, List.nil_append]
    cases hrev : core.reverse with
    | nil =>
      have hcore : core = [] := by simpa using congrArg List.reverse hrev
      subst hcore
      simp
    | cons c r =>
      have hc : c ≠ '=' := by
        apply hpad
        have hm : c ∈ core.reverse := by rw [hrev]; exact List.mem_cons_self c r
        simpa using hm
      rw [if_neg (by
        simp only [List.take_succ_cons, List.cons.injEq]
        rintro ⟨h1, -⟩
        exact hc h1)]
      rw [if_neg (by
        simp only [List.take_succ_cons, List.take_zero, List.cons.injEq]
        rintro ⟨h1, -⟩
        exact hc h1)]
      simp
  · simp only [List.replicate, List.cons_append, List.nil_append]
    cases hrev : core.reverse with
    | nil =>
      have hcore : core = [] := by simpa using congrArg List.reverse hrev
      subst hcore
      simp
    | cons c r =>
      have hc : c ≠ '=' := by
        apply hpad
        have hm : c ∈ core.reverse := by rw [hrev]; exact List.mem_cons_self c r
        simpa using hm
      rw [if_neg (by
        simp only [List.take_succ_cons, List.cons.injEq]
        rintro ⟨-, h2, -⟩
        exact hc h2)]
      rw [if_pos (by simp)]
      simp only [List.drop_succ_cons, List.drop_zero]
      rw [← hrev, List.reverse_reverse]
  · simp only [List.replicate, List.cons_append, List.nil_append]
    rw [if_pos (by simp)]
    simp only [List.drop_succ_cons, List.drop_zero]
    exact List.reverse_reverse core

theorem decodeChars_btoaCore (l : List Nat) (hb : ∀ b ∈ l, b < 256) :
    decodeChars (btoaCore l) = some l := by
  induction l using btoaCore.induct with
  | case1 => rfl
  | case2 a =>
    have ha : a < 256 := hb a (by simp)
    have h1 : b64indexO (b64char (a / 4)) = some (a / 4) := b64_roundtrip_idx _ (by omega)
    have h2 : b64indexO (b64char (a % 4 * 16)) = some (a % 4 * 16) :=
      b64_roundtrip_idx _ (by omega)
    simp only [btoaCore, decodeChars, h1, h2, Option.some.injEq, List.cons.injEq, and_true]
    omega
  | case3 a b =>
    have ha : a < 256 := hb a (by simp)
    have hbb : b < 256 := hb b (by simp)
    have h1 : b64indexO (b64char (a / 4)) = some (a / 4) := b64_roundtrip_idx _ (by omega)
    have h2 : b64indexO (b64char (a % 4 * 16 + b / 16)) = some (a % 4 * 16 + b / 16) :=
      b64_roundtrip_idx _ (by omega)
    have h3 : b64indexO (b64char (b % 16 * 4)) = some (b % 16 * 4) :=
      b64_roundtrip_idx _ (by omega)
    simp only [btoaCore, decodeChars, h1, h2, h3, Option.some.injEq, List.cons.injEq, and_true]
    constructor <;> omega
  | case4 a b c rest ih =>
    have ha : a < 256 := hb a (by simp)
    have hbb : b < 256 := hb b (by simp)
    have hcc : c < 256 := hb c (by simp)
    have hrest : ∀ x ∈ rest, x < 256 := fun x hx => hb x (by simp [hx])
    have h1 : b64indexO (b64char (a / 4)) = some (a / 4) := b64_roundtrip_idx _ (by omega)
    have h2 : b64indexO (b64char (a % 4 * 16 + b / 16)) = some (a % 4 * 16 + b / 16) :=
      b64_roundtrip_idx _ (by omega)
    have h3 : b64indexO (b64char (b % 16 * 4 + c / 64)) = some (b % 16 * 4 + c / 64) :=
      b64_roundtrip_idx _ (by omega)
    have h4 : b64indexO (b64char (c % 64)) = some (c % 64) := b64_roundtrip_idx _ (by omega)
    simp only [btoaCore, decodeChars, h1, h2, h3, h4, ih hrest, Option.some.injEq,
      List.cons.injEq]
    exact ⟨by omega, by omega, by omega, trivial⟩

theorem b64char_not_ws : ∀ n, n < 64 → isB64Whitespace (b64char n) = false := by decide

theorem btoaCore_chars (l : List Nat) (hb : ∀ b ∈ l, b < 256) :
    ∀ c ∈ btoaCore l, ∃ n, n < 64 ∧ c = b64char n := by
  induction l using btoaCore.induct with
  | case1 => simp [btoaCore]
  | case2 a =>
    have ha : a < 256 := hb a (by simp)
    intro c hc
    simp only [btoaCore, List.mem_cons, List.not_mem_nil, or_false] at hc
    rcases hc with h | h <;> exact ⟨_, by omega, h⟩
  | case3 a b =>
    have ha : a < 256 := hb a (by simp)
    have hbb : b < 256 := hb b (by simp)
    intro c hc
    simp only [btoaCore, List.mem_cons, List.not_mem_nil, or_false] at hc
    rcases hc with h | h | h <;> exact ⟨_, by omega, h⟩
  | case4 a b c rest ih =>
    have ha : a < 256 := hb a (by simp)
    have hbb : b < 256 := hb b (by simp)
    have hcc : c < 256 := hb c (by simp)
    have hrest : ∀ x ∈ rest, x < 256 := fun x hx => hb x (by simp [hx])
    intro d hd
    simp only [btoaCore, List.mem_cons] at hd
    rcases hd with h | h | h | h | h
    · exact ⟨_, by omega, h⟩
    · exact ⟨_, by omega, h⟩
    · exact ⟨_, by omega, h⟩
    · exact ⟨_, by omega, h⟩
    · exact ih hrest d h

theorem btoaBytes_no_ws (l : List Nat) (hb : ∀ b ∈ l, b < 256) :
    ∀ c ∈ btoaBytes l, isB64Whitespace c = false := by
  intro c hc
  rcases List.mem_append.1 hc with h | h
  · obtain ⟨n, hn, rfl⟩ := btoaCore_chars l hb c h
    exact b64char_not_ws n hn
  · have heq : c = '=' := List.eq_of_mem_replicate h
    subst heq
    decide

theorem atobO_btoa (l : List Nat) (hb : ∀ b ∈ l, b < 256) : atobO (btoa l) = some l := by
  have hdata : (btoa l).data = btoaBytes l := rfl
  unfold atobO
  rw [hdata]
  rw [List.filter_eq_self.mpr (by
    intro c hc
    simp [btoaBytes_no_ws l hb c hc])]
  rw [show btoaBytes l = btoaCore l ++ List.replicate (b64padCount l) '=' from rfl,
    stripPad_append_pad (btoaCore l) (b64padCount l) (b64padCount_le l)
      (btoa_len_mod4 l) (btoaCore_ne_pad l hb)]
  exact decodeChars_btoaCore l hb

theorem btoa_inj (l₁ l₂ : List Nat) (h₁ : ∀ b ∈ l₁, b < 256) (h₂ : ∀ b ∈ l₂, b < 256)
    (h : btoa l₁ = btoa l₂) : l₁ = l₂ := by
  have hr := atobO_btoa l₁ h₁
  rw [h, atobO_btoa l₂ h₂] at hr
  exact (Option.some.injEq _ _ ▸ hr).symm

theorem btoaCore_length (l : List Nat) (hne : l ≠ []) :
    l.length + 1 ≤ (btoaCore l).length := by
  induction l using btoaCore.induct with
  | case1 => simp at hne
  | case2 a => simp [btoaCore]
  | case3 a b => simp [btoaCore]
  | case4 a b c rest ih =>
    by_cases hr : rest = []
    · subst hr; simp [btoaCore]
    · have := ih hr
      simp only [btoaCore, List.length_cons] at this ⊢
      omega

theorem btoa_length (l : List Nat) (hne : l ≠ []) : l.length + 1 ≤ (btoa l).length := by
  have h1 := btoaCore_length l hne
  have h2 : (btoa l).length = (btoaCore l).length + b64padCount l := by
    simp [btoa, btoaBytes, String.length]
  omega

/-! ### Behaviour of the Key Store and the Cipher -/

theorem btoa_ne_empty (l : List Nat) (hne : l ≠ []) : btoa l ≠ "" := by
  intro h
  have hd : (btoa l).length = 0 := by rw [h]; rfl
  have := btoa_length l hne
  omega

theorem getKey_noStorage (w : World) (h : w.storageOk = false) :
    getEncryptionKey w = .error (.platformUnavailable, w) := by
  simp [getEncryptionKey, lsGetItem, h]

theorem generateAndStoreKey_eq (w : World) (hs : w.storageOk = true)
    (hc : w.cryptoOk = true) :
    generateAndStoreKey w =
      .ok (drawBytes w.tape w.pos 32,
        { w with
            store := fun n =>
              if n = ENCRYPTION_KEY_NAME then some (btoa (drawBytes w.tape w.pos 32))
              else w.store n,
            pos := w.pos + 32 }) := by
  simp [generateAndStoreKey, generateExportKey, getRandomValues, hc, lsSetItem, hs]

theorem generateAndStoreKey_noCrypto (w : World) (hc : w.cryptoOk = false) :
    generateAndStoreKey w = .error (.platformUnavailable, w) := by
  simp [generateAndStoreKey, generateExportKey, getRandomValues, hc]

theorem getKey_some_valid (w : World) (k : List Nat) (hs : w.storageOk = true)
    (hc : w.cryptoOk = true) (hk : k.length = 32) (hkb : ∀ b ∈ k, b < 256)
    (hslot : w.store ENCRYPTION_KEY_NAME = some (btoa k)) :
    getEncryptionKey w = .ok (k, w) := by
  have hbne : btoa k ≠ "" := btoa_ne_empty k (by intro h; rw [h] at hk; simp at hk)
  simp only [getEncryptionKey, lsGetItem, hs, if_true, hslot]
  rw [if_neg hbne]
  simp [atobE, atobO_btoa k hkb, importKeyRaw, hc, hk]

theorem getKey_some_final (w : World) (s : String) (hs : w.storageOk = true)
    (hne : s ≠ "") (hslot : w.store ENCRYPTION_KEY_NAME = some s) :
    finalWorld (getEncryptionKey w) = w := by
  simp only [getEncryptionKey, lsGetItem, hs, if_true, hslot]
  rw [if_neg hne]
  cases hat : atobO s with
  | none => simp [atobE, hat, finalWorld]
  | some kb =>
    by_cases hc : w.cryptoOk
    · by_cases hl : kb.length = 16 ∨ kb.length = 24 ∨ kb.length = 32
      · simp [atobE, hat, importKeyRaw, hc, hl, finalWorld]
      · simp [atobE, hat, importKeyRaw, hc, hl, finalWorld]
    · simp [atobE, hat, importKeyRaw, hc, finalWorld]

theorem getKey_empty (w : World) (hs : w.storageOk = true) (hc : w.cryptoOk = true)
    (hslot : w.store ENCRYPTION_KEY_NAME = some "") :
    getEncryptionKey w =
      .ok (drawBytes w.tape w.pos 32,
        { w with
            store := fun n =>
              if n = ENCRYPTION_KEY_NAME then some (btoa (drawBytes w.tape w.pos 32))
              else w.store n,
            pos := w.pos + 32 }) := by
  simp only [getEncryptionKey, lsGetItem, hs, if_true, hslot, if_pos rfl]
  rw [generateAndStoreKey_eq w hs hc, hs]

theorem getKey_empty_noCrypto (w : World) (hs : w.storageOk = true)
    (hc : w.cryptoOk = false) (hslot : w.store ENCRYPTION_KEY_NAME = some "") :
    getEncryptionKey w = .error (.platformUnavailable, w) := by
  simp only [getEncryptionKey, lsGetItem, hs, if_true, hslot, if_pos rfl]
  exact generateAndStoreKey_noCrypto w hc

theorem getKey_none (w : World) (hs : w.storageOk = true) (hc : w.cryptoOk = true)
    (hslot : w.store ENCRYPTION_KEY_NAME = none) :
    getEncryptionKey w =
      .ok (drawBytes w.tape w.pos 32,
        { w with
            store := fun n =>
              if n = ENCRYPTION_KEY_NAME then some (btoa (drawBytes w.tape w.pos 32))
              else w.store n,
            pos := w.pos + 32 }) := by
  simp only [getEncryptionKey, lsGetItem, hs, if_true, hslot]
  rw [generateAndStoreKey_eq w hs hc, hs]

theorem getKey_none_noCrypto (w : World) (hs : w.storageOk = true) (hc : w.cryptoOk = false)
    (hslot : w.store ENCRYPTION_KEY_NAME = none) :
    getEncryptionKey w = .error (.platformUnavailable, w) := by
  simp only [getEncryptionKey, lsGetItem, hs, if_true, hslot]
  exact generateAndStoreKey_noCrypto w hc

theorem drawBytes_length (tape : Nat → Nat) (start n : Nat) :
    (drawBytes tape start n).length = n := by
  simp [drawBytes]

theorem drawBytes_lt (tape : Nat → Nat) (start n : Nat) :
    ∀ b ∈ drawBytes tape start n, b < 256 := by
  intro b hb
  simp only [drawBytes, List.mem_map] at hb
  obtain ⟨i, -, hi⟩ := hb
  omega

theorem encrypt_keyed (A : SubtleAES) (T : TextCodec) (p : String) (w : World)
    (k : List Nat) (hp : p ≠ "") (hs : w.storageOk = true) (hc : w.cryptoOk = true)
    (hk : k.length = 32) (hkb : ∀ b ∈ k, b < 256)
    (hslot : w.store ENCRYPTION_KEY_NAME = some (btoa k)) :
    encrypt A T p w =
      .ok (btoa (drawBytes w.tape w.pos 12 ++
          A.enc k (drawBytes w.tape w.pos 12) (T.encode p)),
        { w with pos := w.pos + 12 }) := by
  simp only [encrypt, if_neg hp, getKey_some_valid w k hs hc hk hkb hslot,
    getRandomValues, hc, if_true, subtleEncrypt]

theorem encrypt_fresh (A : SubtleAES) (T : TextCodec) (p : String) (w : World)
    (hp : p ≠ "") (hs : w.storageOk = true) (hc : w.cryptoOk = true)
    (hslot : w.store ENCRYPTION_KEY_NAME = none) :
    encrypt A T p w =
      .ok (btoa (drawBytes w.tape (w.pos + 32) 12 ++
          A.enc (drawBytes w.tape w.pos 32) (drawBytes w.tape (w.pos + 32) 12)
            (T.encode p)),
        { w with
            store := fun n =>
              if n = ENCRYPTION_KEY_NAME then some (btoa (drawBytes w.tape w.pos 32))
              else w.store n,
            pos := w.pos + 32 + 12 }) := by
  simp only [encrypt, if_neg hp, getKey_none w hs hc hslot, getRandomValues, hc, if_true,
    subtleEncrypt]

theorem decrypt_env (A : SubtleAES) (T : TextCodec) (k iv m : List Nat) (w : World)
    (hs : w.storageOk = true) (hc : w.cryptoOk = true)
    (hk : k.length = 32) (hkb : ∀ b ∈ k, b < 256)
    (hiv : iv.length = 12) (hivb : ∀ b ∈ iv, b < 256) (hmb : ∀ b ∈ m, b < 256)
    (hslot : w.store ENCRYPTION_KEY_NAME = some (btoa k)) :
    decrypt A T (btoa (iv ++ A.enc k iv m)) w = (T.decode m, w) := by
  have hct := A.enc_bytes k iv m hkb hivb hmb
  have hbytes : ∀ b ∈ iv ++ A.enc k iv m, b < 256 := by
    intro b hb
    rcases List.mem_append.1 hb with h | h
    · exact hivb b h
    · exact hct b h
  have hne2 : iv ++ A.enc k iv m ≠ [] := by
    intro h
    have := congrArg List.length h
    simp [hiv] at this
  have hne : btoa (iv ++ A.enc k iv m) ≠ "" := btoa_ne_empty _ hne2
  have htake : (iv ++ A.enc k iv m).take 12 = iv := by
    rw [← hiv]; simp [List.take_append]
  have hdrop : (iv ++ A.enc k iv m).drop 12 = A.enc k iv m := by
    rw [← hiv]; simp [List.drop_append]
  simp only [decrypt, if_neg hne, decryptTry, getKey_some_valid w k hs hc hk hkb hslot,
    atobE, atobO_btoa _ hbytes, subtleDecrypt, hc, if_true, htake, hdrop,
    A.dec_enc k iv m hk hiv]

theorem encrypt_then_decrypt (A : SubtleAES) (T : TextCodec) (P : String) (w : World)
    (hP : P ≠ "") (hs : w.storageOk = true) (hc : w.cryptoOk = true) (hv : validSlot w) :
    ∃ env w', encrypt A T P w = .ok (env, w') ∧ decrypt A T env w' = (P, w') := by
  cases hslot : w.store ENCRYPTION_KEY_NAME with
  | none =>
    rw [encrypt_fresh A T P w hP hs hc hslot]
    refine ⟨_, _, rfl, ?_⟩
    have hdec := decrypt_env A T (drawBytes w.tape w.pos 32)
      (drawBytes w.tape (w.pos + 32) 12) (T.encode P)
      { w with
          store := fun n =>
            if n = ENCRYPTION_KEY_NAME then some (btoa (drawBytes w.tape w.pos 32))
            else w.store n,
          pos := w.pos + 32 + 12 }
      hs hc (drawBytes_length _ _ _) (drawBytes_lt _ _ _)
      (drawBytes_length _ _ _) (drawBytes_lt _ _ _) (T.encode_bytes P)
      (by simp)
    rw [hdec, T.decode_encode]
  | some s =>
    obtain ⟨k, hk, hkb, rfl⟩ := hv s hslot
    rw [encrypt_keyed A T P w k hP hs hc hk hkb hslot]
    refine ⟨_, _, rfl, ?_⟩
    have hdec := decrypt_env A T k (drawBytes w.tape w.pos 12) (T.encode P)
      { w with pos := w.pos + 12 } hs hc hk hkb (drawBytes_length _ _ _)
      (drawBytes_lt _ _ _) (T.encode_bytes P) hslot
    rw [hdec, T.decode_encode]

/-- C1: for every non-empty plaintext `P`, encrypting `P` and then decrypting
the resulting envelope under the same persisted key returns `P` exactly, for
every AEAD backend and text codec satisfying the platform contracts, in every
world whose platform primitives are available and whose key slot is empty or
holds persisted key material. -/
theorem round_trip_same_key (A : SubtleAES) (T : TextCodec) (P : String) (w : World)
    (hP : P ≠ "") (hs : w.storageOk = true) (hc : w.cryptoOk = true) (hv : validSlot w) :
    ∃ env w', encrypt A T P w = .ok (env, w') ∧ decrypt A T env w' = (P, w') :=
  encrypt_then_decrypt A T P w hP hs hc hv

theorem round_trip_same_key_witness :
    ∃ env w', encrypt sampleAES sampleCodec "ab" w0 = .ok (env, w') ∧
      decrypt sampleAES sampleCodec env w' = ("ab", w') :=
  round_trip_same_key sampleAES sampleCodec "ab" w0 (by decide) rfl rfl
    (by intro s hs; simp [w0] at hs)

/-- C4: `encrypt` on the empty string returns the empty string and `decrypt` on
the empty string returns the empty string, in both cases leaving the world
untouched — no key material is read or created, no randomness is consumed, and
the result does not depend on the cryptographic backend or storage being
available. -/
theorem empty_string_identity (A : SubtleAES) (T : TextCodec) (w : World) :
    encrypt A T "" w = .ok ("", w) ∧ decrypt A T "" w = ("", w) := by
  constructor
  · simp [encrypt]
  · simp [decrypt]

theorem validSlot_wKeyed : validSlot wKeyed := by
  intro s hs
  simp [wKeyed, w0, ENCRYPTION_KEY_NAME] at hs
  exact ⟨k0, by decide, by decide, hs.symm⟩

theorem validSlot_wKeyed1 : validSlot wKeyed1 := by
  intro s hs
  simp [wKeyed1, w0, ENCRYPTION_KEY_NAME] at hs
  exact ⟨k1, by decide, by decide, hs.symm⟩

theorem wKeyed_slot : wKeyed.store ENCRYPTION_KEY_NAME = some (btoa k0) := by
  simp [wKeyed, w0]

theorem wKeyed1_slot : wKeyed1.store ENCRYPTION_KEY_NAME = some (btoa k1) := by
  simp [wKeyed1, w0]

/-- C5: for every non-empty plaintext, the envelope returned by `encrypt` is
exactly the base64 encoding of a 12-byte nonce freshly drawn from the secure
random source, concatenated (nonce first) with the AEAD encryption — under the
256-bit key and that nonce, with no associated data (the modelled AEAD takes
none) — of the UTF-8 encoding of the plaintext. -/
theorem envelope_structure (A : SubtleAES) (T : TextCodec) (P : String) (w : World)
    (hP : P ≠ "") (hs : w.storageOk = true) (hc : w.cryptoOk = true) (hv : validSlot w) :
    ∃ key iv q w',
      encrypt A T P w = .ok (btoa (iv ++ A.enc key iv (T.encode P)), w') ∧
      key.length = 32 ∧ iv = drawBytes w.tape q 12 ∧ iv.length = 12 ∧
      w.pos ≤ q ∧ w'.pos = q + 12 := by
  cases hslot : w.store ENCRYPTION_KEY_NAME with
  | none =>
    exact ⟨drawBytes w.tape w.pos 32, drawBytes w.tape (w.pos + 32) 12, w.pos + 32, _,
      encrypt_fresh A T P w hP hs hc hslot, drawBytes_length _ _ _, rfl,
      drawBytes_length _ _ _, by omega, rfl⟩
  | some s =>
    obtain ⟨k, hk, hkb, rfl⟩ := hv s hslot
    exact ⟨k, drawBytes w.tape w.pos 12, w.pos, _,
      encrypt_keyed A T P w k hP hs hc hk hkb hslot, hk, rfl,
      drawBytes_length _ _ _, le_refl _, rfl⟩

theorem envelope_structure_witness :
    ∃ key iv q w',
      encrypt sampleAES sampleCodec "pw" wKeyed =
        .ok (btoa (iv ++ sampleAES.enc key iv (sampleCodec.encode "pw")), w') ∧
      key.length = 32 ∧ iv = drawBytes wKeyed.tape q 12 ∧ iv.length = 12 ∧
      wKeyed.pos ≤ q ∧ w'.pos = q + 12 :=
  envelope_structure sampleAES sampleCodec "pw" wKeyed (by decide) rfl rfl validSlot_wKeyed

/-- C7: when key material is already persisted under the fixed slot name, a
key-store call returns exactly the key imported from that stored value and
leaves the world — storage included — completely unchanged; and an envelope
encrypted after one call still decrypts correctly after a further call. -/
theorem key_store_idempotent (A : SubtleAES) (T : TextCodec) (P : String) (w : World)
    (k : List Nat) (hP : P ≠ "") (hs : w.storageOk = true) (hc : w.cryptoOk = true)
    (hk : k.length = 32) (hkb : ∀ b ∈ k, b < 256)
    (hslot : w.store ENCRYPTION_KEY_NAME = some (btoa k)) :
    getEncryptionKey w = .ok (k, w) ∧
    ∃ env w', encrypt A T P w = .ok (env, w') ∧ getEncryptionKey w' = .ok (k, w') ∧
      (decrypt A T env w').1 = P := by
  refine ⟨getKey_some_valid w k hs hc hk hkb hslot, ?_⟩
  rw [encrypt_keyed A T P w k hP hs hc hk hkb hslot]
  refine ⟨_, _, rfl, getKey_some_valid _ k hs hc hk hkb hslot, ?_⟩
  have hdec := decrypt_env A T k (drawBytes w.tape w.pos 12) (T.encode P)
    { w with pos := w.pos + 12 } hs hc hk hkb (drawBytes_length _ _ _)
    (drawBytes_lt _ _ _) (T.encode_bytes P) hslot
  rw [hdec, T.decode_encode]

theorem key_store_idempotent_witness :
    getEncryptionKey wKeyed = .ok (k0, wKeyed) ∧
    ∃ env w', encrypt sampleAES sampleCodec "pw" wKeyed = .ok (env, w') ∧
      getEncryptionKey w' = .ok (k0, w') ∧
      (decrypt sampleAES sampleCodec env w').1 = "pw" :=
  key_store_idempotent sampleAES sampleCodec "pw" wKeyed k0 (by decide) rfl rfl
    (by decide) (by decide) wKeyed_slot

/-- C3: an envelope produced by `encrypt` under one persisted key decrypts,
under any different persisted key, to the sentinel marker — the authentication
failure is caught, so the caller sees neither the original plaintext nor a
propagated error. -/
theorem wrong_key_yields_sentinel (A : SubtleAES) (T : TextCodec) (P : String)
    (w₁ w₂ : World) (k₁ k₂ : List Nat) (hP : P ≠ "")
    (hs₁ : w₁.storageOk = true) (hc₁ : w₁.cryptoOk = true)
    (hk₁ : k₁.length = 32) (hkb₁ : ∀ b ∈ k₁, b < 256)
    (hslot₁ : w₁.store ENCRYPTION_KEY_NAME = some (btoa k₁))
    (hs₂ : w₂.storageOk = true) (hc₂ : w₂.cryptoOk = true)
    (hk₂ : k₂.length = 32) (hkb₂ : ∀ b ∈ k₂, b < 256)
    (hslot₂ : w₂.store ENCRYPTION_KEY_NAME = some (btoa k₂))
    (hne : k₁ ≠ k₂) :
    ∃ env w₁', encrypt A T P w₁ = .ok (env, w₁') ∧
      decrypt A T env w₂ = (decryptionFailedSentinel, w₂) := by
  rw [encrypt_keyed A T P w₁ k₁ hP hs₁ hc₁ hk₁ hkb₁ hslot₁]
  refine ⟨_, _, rfl, ?_⟩
  obtain ⟨iv, hiv_eq, hiv, hivb⟩ :
      ∃ iv, drawBytes w₁.tape w₁.pos 12 = iv ∧ iv.length = 12 ∧ ∀ b ∈ iv, b < 256 :=
    ⟨_, rfl, drawBytes_length _ _ _, drawBytes_lt _ _ _⟩
  rw [hiv_eq]
  have hct := A.enc_bytes k₁ iv (T.encode P) hkb₁ hivb (T.encode_bytes P)
  have hbytes : ∀ b ∈ iv ++ A.enc k₁ iv (T.encode P), b < 256 := by
    intro b hb
    rcases List.mem_append.1 hb with h | h
    · exact hivb b h
    · exact hct b h
  have hne2 : iv ++ A.enc k₁ iv (T.encode P) ≠ [] := by
    intro h
    have := congrArg List.length h
    simp [hiv] at this
  have hne0 := btoa_ne_empty _ hne2
  have htake : (iv ++ A.enc k₁ iv (T.encode P)).take 12 = iv := by
    rw [← hiv]; simp [List.take_append]
  have hdrop : (iv ++ A.enc k₁ iv (T.encode P)).drop 12 = A.enc k₁ iv (T.encode P) := by
    rw [← hiv]; simp [List.drop_append]
  simp only [decrypt, if_neg hne0, decryptTry,
    getKey_some_valid w₂ k₂ hs₂ hc₂ hk₂ hkb₂ hslot₂, atobE, atobO_btoa _ hbytes,
    subtleDecrypt, hc₂, if_true, htake, hdrop,
    A.auth_key k₁ k₂ iv (T.encode P) hk₁ hk₂ hiv hne]

theorem wrong_key_yields_sentinel_witness :
    ∃ env w₁', encrypt sampleAES sampleCodec "pw" wKeyed = .ok (env, w₁') ∧
      decrypt sampleAES sampleCodec env wKeyed1 = (decryptionFailedSentinel, wKeyed1) :=
  wrong_key_yields_sentinel sampleAES sampleCodec "pw" wKeyed wKeyed1 k0 k1 (by decide)
    rfl rfl (by decide) (by decide) wKeyed_slot rfl rfl (by decide) (by decide)
    wKeyed1_slot (by decide)

theorem envelope_ne_plaintext (A : SubtleAES) (T : TextCodec) (P : String)
    (k iv : List Nat) (hk : k.length = 32) (hiv : iv.length = 12) :
    btoa (iv ++ A.enc k iv (T.encode P)) ≠ P := by
  intro h
  have hlen := congrArg String.length h
  have h1 : (iv ++ A.enc k iv (T.encode P)).length + 1 ≤
      (btoa (iv ++ A.enc k iv (T.encode P))).length := by
    apply btoa_length
    intro hnil
    have := congrArg List.length hnil
    simp [hiv] at this
  have h2 : (T.encode P).length + 16 ≤ (A.enc k iv (T.encode P)).length :=
    A.enc_len k iv _ hk hiv
  have h3 : P.length ≤ (T.encode P).length := T.encode_len P
  have h4 : (iv ++ A.enc k iv (T.encode P)).length =
      iv.length + (A.enc k iv (T.encode P)).length := List.length_append _ _
  omega

/-- C6: with key material persisted, a non-empty plaintext is never equal to
its own envelope, and two successive `encrypt` calls that draw distinct fresh
nonces from the random source produce distinct envelopes, both of which decrypt
back to the plaintext. -/
theorem nonce_freshness_distinct_envelopes (A : SubtleAES) (T : TextCodec)
    (P : String) (w : World) (k : List Nat) (hP : P ≠ "")
    (hs : w.storageOk = true) (hc : w.cryptoOk = true)
    (hk : k.length = 32) (hkb : ∀ b ∈ k, b < 256)
    (hslot : w.store ENCRYPTION_KEY_NAME = some (btoa k))
    (hnonce : drawBytes w.tape w.pos 12 ≠ drawBytes w.tape (w.pos + 12) 12) :
    ∃ e₁ w₁ e₂ w₂,
      encrypt A T P w = .ok (e₁, w₁) ∧ encrypt A T P w₁ = .ok (e₂, w₂) ∧
      e₁ ≠ P ∧ e₂ ≠ P ∧ e₁ ≠ e₂ ∧
      (decrypt A T e₁ w₂).1 = P ∧ (decrypt A T e₂ w₂).1 = P := by
  obtain ⟨iv₁, hiv₁_eq, hiv₁, hivb₁⟩ :
      ∃ iv, drawBytes w.tape w.pos 12 = iv ∧ iv.length = 12 ∧ ∀ b ∈ iv, b < 256 :=
    ⟨_, rfl, drawBytes_length _ _ _, drawBytes_lt _ _ _⟩
  obtain ⟨iv₂, hiv₂_eq, hiv₂, hivb₂⟩ :
      ∃ iv, drawBytes w.tape (w.pos + 12) 12 = iv ∧ iv.length = 12 ∧ ∀ b ∈ iv, b < 256 :=
    ⟨_, rfl, drawBytes_length _ _ _, drawBytes_lt _ _ _⟩
  rw [hiv₁_eq, hiv₂_eq] at hnonce
  have henc₁ := encrypt_keyed A T P w k hP hs hc hk hkb hslot
  rw [hiv₁_eq] at henc₁
  have henc₂ := encrypt_keyed A T P { w with pos := w.pos + 12 } k hP hs hc hk hkb hslot
  rw [show drawBytes ({ w with pos := w.pos + 12 } : World).tape
      ({ w with pos := w.pos + 12 } : World).pos 12 = iv₂ from hiv₂_eq] at henc₂
  refine ⟨_, _, _, _, henc₁, henc₂, envelope_ne_plaintext A T P k iv₁ hk hiv₁,
    envelope_ne_plaintext A T P k iv₂ hk hiv₂, ?_, ?_, ?_⟩
  · intro h
    have hb₁ : ∀ b ∈ iv₁ ++ A.enc k iv₁ (T.encode P), b < 256 := by
      intro b hb
      rcases List.mem_append.1 hb with hm | hm
      · exact hivb₁ b hm
      · exact A.enc_bytes k iv₁ (T.encode P) hkb hivb₁ (T.encode_bytes P) b hm
    have hb₂ : ∀ b ∈ iv₂ ++ A.enc k iv₂ (T.encode P), b < 256 := by
      intro b hb
      rcases List.mem_append.1 hb with hm | hm
      · exact hivb₂ b hm
      · exact A.enc_bytes k iv₂ (T.encode P) hkb hivb₂ (T.encode_bytes P) b hm
    have hlist := btoa_inj _ _ hb₁ hb₂ h
    have htk := congrArg (List.take 12) hlist
    have ht₁ : (iv₁ ++ A.enc k iv₁ (T.encode P)).take 12 = iv₁ := by
      rw [← hiv₁]; simp [List.take_append]
    have ht₂ : (iv₂ ++ A.enc k iv₂ (T.encode P)).take 12 = iv₂ := by
      rw [← hiv₂]; simp [List.take_append]
    rw [ht₁, ht₂] at htk
    exact hnonce htk
  · have hdec := decrypt_env A T k iv₁ (T.encode P)
      { { w with pos := w.pos + 12 } with pos := ({ w with pos := w.pos + 12 } : World).pos + 12 }
      hs hc hk hkb hiv₁ hivb₁ (T.encode_bytes P) hslot
    rw [hdec, T.decode_encode]
  · have hdec := decrypt_env A T k iv₂ (T.encode P)
      { { w with pos := w.pos + 12 } with pos := ({ w with pos := w.pos + 12 } : World).pos + 12 }
      hs hc hk hkb hiv₂ hivb₂ (T.encode_bytes P) hslot
    rw [hdec, T.decode_encode]

theorem nonce_freshness_distinct_envelopes_witness :
    ∃ e₁ w₁ e₂ w₂,
      encrypt sampleAES sampleCodec "pw" wKeyed = .ok (e₁, w₁) ∧
      encrypt sampleAES sampleCodec "pw" w₁ = .ok (e₂, w₂) ∧
      e₁ ≠ "pw" ∧ e₂ ≠ "pw" ∧ e₁ ≠ e₂ ∧
      (decrypt sampleAES sampleCodec e₁ w₂).1 = "pw" ∧
      (decrypt sampleAES sampleCodec e₂ w₂).1 = "pw" :=
  nonce_freshness_distinct_envelopes sampleAES sampleCodec "pw" wKeyed k0 (by decide)
    rfl rfl (by decide) (by decide) wKeyed_slot (by decide)

theorem decrypt_bad_b64 (A : SubtleAES) (T : TextCodec) (c : String) (w : World)
    (hcne : c ≠ "") (hbad : atobO c = none) (hs : w.storageOk = true)
    (hc : w.cryptoOk = true) (hv : validSlot w) :
    (decrypt A T c w).1 = decryptionFailedSentinel := by
  cases hslot : w.store ENCRYPTION_KEY_NAME with
  | none =>
    simp only [decrypt, if_neg hcne, decryptTry, getKey_none w hs hc hslot, atobE, hbad]
  | some s =>
    obtain ⟨k, hk, hkb, rfl⟩ := hv s hslot
    simp only [decrypt, if_neg hcne, decryptTry,
      getKey_some_valid w k hs hc hk hkb hslot, atobE, hbad]

/-- C9: the failure sentinel is the literal string "[Decryption failed]", and
it is an ordinary in-band value: that very string, used as a plaintext,
encrypts and then decrypts back to itself, while an undecryptable input makes
`decrypt` return the same string — so the two outcomes are indistinguishable to
a caller. -/
theorem sentinel_in_band (A : SubtleAES) (T : TextCodec) (w : World)
    (hs : w.storageOk = true) (hc : w.cryptoOk = true) (hv : validSlot w) :
    decryptionFailedSentinel = "[Decryption failed]" ∧
    (∃ env w', encrypt A T decryptionFailedSentinel w = .ok (env, w') ∧
      decrypt A T env w' = (decryptionFailedSentinel, w')) ∧
    (decrypt A T "!" w).1 = decryptionFailedSentinel := by
  refine ⟨rfl, encrypt_then_decrypt A T _ w (by decide) hs hc hv, ?_⟩
  exact decrypt_bad_b64 A T "!" w (by decide) (by decide) hs hc hv

theorem sentinel_in_band_witness :
    decryptionFailedSentinel = "[Decryption failed]" ∧
    (∃ env w', encrypt sampleAES sampleCodec decryptionFailedSentinel w0 = .ok (env, w') ∧
      decrypt sampleAES sampleCodec env w' = (decryptionFailedSentinel, w')) ∧
    (decrypt sampleAES sampleCodec "!" w0).1 = decryptionFailedSentinel :=
  sentinel_in_band sampleAES sampleCodec w0 rfl rfl
    (by intro s hs; simp [w0] at hs)

theorem decrypt_unfold (A : SubtleAES) (T : TextCodec) (c : String) (w : World)
    (key : List Nat) (w₁ : World) (hcne : c ≠ "")
    (hkey : getEncryptionKey w = .ok (key, w₁)) :
    decrypt A T c w =
      match atobO c with
      | none => (decryptionFailedSentinel, w₁)
      | some bs =>
        if w₁.cryptoOk then
          match A.dec key (bs.take 12) (bs.drop 12) with
          | some pt => (T.decode pt, w₁)
          | none => (decryptionFailedSentinel, w₁)
        else (decryptionFailedSentinel, w₁) := by
  simp only [decrypt, if_neg hcne, decryptTry, hkey, atobE]
  cases hat : atobO c with
  | none => rfl
  | some bs =>
    simp only [subtleDecrypt]
    cases hco : w₁.cryptoOk with
    | true =>
      simp only [if_true]
      cases A.dec key (bs.take 12) (bs.drop 12) <;> rfl
    | false => simp

theorem getKey_ok (w : World) (hs : w.storageOk = true) (hc : w.cryptoOk = true)
    (hv : validSlot w) :
    ∃ key w₁, getEncryptionKey w = .ok (key, w₁) ∧ key.length = 32 ∧
      (∀ b ∈ key, b < 256) ∧ w₁.storageOk = true ∧ w₁.cryptoOk = true ∧
      w₁.store ENCRYPTION_KEY_NAME = some (btoa key) ∧ w₁.tape = w.tape := by
  cases hslot : w.store ENCRYPTION_KEY_NAME with
  | none =>
    exact ⟨_, _, getKey_none w hs hc hslot, drawBytes_length _ _ _, drawBytes_lt _ _ _,
      hs, hc, by simp, rfl⟩
  | some s =>
    obtain ⟨k, hk, hkb, rfl⟩ := hv s hslot
    exact ⟨k, w, getKey_some_valid w k hs hc hk hkb hslot, hk, hkb, hs, hc, hslot, rfl⟩

/-- C2 (amended): under available platform primitives, `decrypt` catches every
decrypt-time exception — syntactically invalid base64, a decoded input shorter
than 12 bytes, and any authentication failure (truncated ciphertext, tag
mismatch, wrong key, corrupted ciphertext) — and returns the sentinel marker
instead of propagating; but an authenticated payload is handed to the platform
text decoder, whose non-fatal replacement semantics always yields that decoder's
string (with U+FFFD substitutions if the bytes are not valid UTF-8), never the
sentinel. -/
theorem decrypt_failure_sentinel_cases (A : SubtleAES) (T : TextCodec) (c : String)
    (w : World) (hs : w.storageOk = true) (hc : w.cryptoOk = true) (hv : validSlot w)
    (hcne : c ≠ "") :
    (atobO c = none → (decrypt A T c w).1 = decryptionFailedSentinel) ∧
    (∀ bs, atobO c = some bs → bs.length < 12 →
      (decrypt A T c w).1 = decryptionFailedSentinel) ∧
    (∀ key w₁ bs, getEncryptionKey w = .ok (key, w₁) → atobO c = some bs →
      A.dec key (bs.take 12) (bs.drop 12) = none →
      (decrypt A T c w).1 = decryptionFailedSentinel) ∧
    (∀ key w₁ bs pt, getEncryptionKey w = .ok (key, w₁) → atobO c = some bs →
      A.dec key (bs.take 12) (bs.drop 12) = some pt →
      (decrypt A T c w).1 = T.decode pt) := by
  obtain ⟨key, w₁, hkey, hk, hkb, hs₁, hc₁, hslot₁, htape⟩ := getKey_ok w hs hc hv
  have hu := decrypt_unfold A T c w key w₁ hcne hkey
  refine ⟨?_, ?_, ?_, ?_⟩
  · intro hbad
    rw [hu, hbad]
  · intro bs hbs hshort
    have hdec : A.dec key (bs.take 12) (bs.drop 12) = none := by
      apply A.dec_short
      have hd := List.length_drop 12 bs
      omega
    rw [hu, hbs]
    simp only [hc₁, if_true, hdec]
  · intro key' w₁' bs hkey' hbs hdec
    rw [hkey] at hkey'
    injection hkey' with hpair
    have hkeq : key = key' := congrArg Prod.fst hpair
    subst hkeq
    rw [hu, hbs]
    simp only [hc₁, if_true, hdec]
  · intro key' w₁' bs pt hkey' hbs hdec
    rw [hkey] at hkey'
    injection hkey' with hpair
    have hkeq : key = key' := congrArg Prod.fst hpair
    subst hkeq
    rw [hu, hbs]
    simp only [hc₁, if_true, hdec]

theorem decrypt_failure_sentinel_cases_witness :
    (atobO "!" = none →
      (decrypt sampleAES sampleCodec "!" w0).1 = decryptionFailedSentinel) ∧
    (∀ bs, atobO "!" = some bs → bs.length < 12 →
      (decrypt sampleAES sampleCodec "!" w0).1 = decryptionFailedSentinel) ∧
    (∀ key w₁ bs, getEncryptionKey w0 = .ok (key, w₁) → atobO "!" = some bs →
      sampleAES.dec key (bs.take 12) (bs.drop 12) = none →
      (decrypt sampleAES sampleCodec "!" w0).1 = decryptionFailedSentinel) ∧
    (∀ key w₁ bs pt, getEncryptionKey w0 = .ok (key, w₁) → atobO "!" = some bs →
      sampleAES.dec key (bs.take 12) (bs.drop 12) = some pt →
      (decrypt sampleAES sampleCodec "!" w0).1 = sampleCodec.decode pt) :=
  decrypt_failure_sentinel_cases sampleAES sampleCodec "!" w0 rfl rfl
    (by intro s hs; simp [w0] at hs) (by decide)

/-- C2 (counterexample): the claim that an authenticated payload of invalid
UTF-8 is a caught failure yielding the sentinel is false — the non-fatal text
decoder returns a replacement-character string instead. Witnessed by the
envelope `env255`, whose payload decrypts to the single byte 255. -/
theorem decrypt_invalid_utf8_refuted : ¬ decryptAllFailuresSentinelClaim := by
  intro h
  have hkey : getEncryptionKey wKeyed = .ok (k0, wKeyed) :=
    getKey_some_valid wKeyed k0 rfl rfl (by decide) (by decide) wKeyed_slot
  have hat : atobO env255 = some (iv0 ++ sampleAES.enc k0 iv0 [255]) :=
    atobO_btoa _ (by decide)
  have hdec : sampleAES.dec k0 ((iv0 ++ sampleAES.enc k0 iv0 [255]).take 12)
      ((iv0 ++ sampleAES.enc k0 iv0 [255]).drop 12) = some [255] := by decide
  have hnex : ¬ ∃ s, sampleCodec.encode s = [255] := by
    rintro ⟨s, hsenc⟩
    have hlen4 : ∀ cs : List Char, (sampleEncodeList cs).length % 4 = 0 := by
      intro cs
      induction cs with
      | nil => rfl
      | cons c r ih =>
        have h4 : (sampleEncodeList (c :: r)).length = 4 + (sampleEncodeList r).length := by
          simp only [sampleEncodeList, sampleEncodeChar, List.length_append,
            List.length_cons, List.length_nil]
        omega
    have hl := hlen4 s.data
    rw [show sampleCodec.encode s = sampleEncodeList s.data from rfl] at hsenc
    rw [hsenc] at hl
    simp at hl
  have hclaim := (h sampleAES sampleCodec env255 wKeyed rfl rfl validSlot_wKeyed
    (by decide)).2.2 k0 wKeyed _ [255] hkey hat hdec hnex
  have heval : (decrypt sampleAES sampleCodec env255 wKeyed).1 = "�" := by
    rw [decrypt_unfold sampleAES sampleCodec env255 wKeyed k0 wKeyed (by decide) hkey,
      hat]
    simp only [show wKeyed.cryptoOk = true from rfl, if_true, hdec]
    rfl
  rw [hclaim] at heval
  exact absurd heval (by decide)

/-- C8 (amended): when durable storage is unavailable, `encrypt` fails with the
platform-primitive error, which propagates to its caller uncaught; but
`decrypt`'s catch-all also swallows platform errors — it returns the sentinel
marker for them exactly as for malformed ciphertext, so only `encrypt`
propagates platform failures. -/
theorem platform_error_propagation_split (A : SubtleAES) (T : TextCodec)
    (p c : String) (w : World) (hsf : w.storageOk = false)
    (hp : p ≠ "") (hcne : c ≠ "") :
    encrypt A T p w = .error (.platformUnavailable, w) ∧
    decrypt A T c w = (decryptionFailedSentinel, w) := by
  constructor
  · simp only [encrypt, if_neg hp, getKey_noStorage w hsf]
  · simp only [decrypt, if_neg hcne, decryptTry, getKey_noStorage w hsf]

theorem platform_error_propagation_split_witness :
    encrypt sampleAES sampleCodec "x" wNoStorage =
      .error (.platformUnavailable, wNoStorage) ∧
    decrypt sampleAES sampleCodec "AAAA" wNoStorage =
      (decryptionFailedSentinel, wNoStorage) :=
  platform_error_propagation_split sampleAES sampleCodec "x" "AAAA" wNoStorage rfl
    (by decide) (by decide)

/-- C8 (counterexample): the claim that `decrypt` lets platform-primitive
errors propagate (converting only malformed-ciphertext failures to the
sentinel) is false: with storage unavailable, `decrypt` returns the sentinel. -/
theorem platform_error_claim_refuted : ¬ platformErrorsPropagateClaim := by
  intro h
  have h2 := (h sampleAES sampleCodec "x" "AAAA" wNoStorage rfl (by decide) (by decide)).2
  exact h2 (by decide)

theorem getKey_some_eq (w : World) (s : String) (hs : w.storageOk = true)
    (hne : s ≠ "") (hslot : w.store ENCRYPTION_KEY_NAME = some s) :
    getEncryptionKey w =
      match atobO s with
      | none => .error (.invalidCharacter, w)
      | some kb =>
        if w.cryptoOk then
          (if kb.length = 16 ∨ kb.length = 24 ∨ kb.length = 32 then .ok (kb, w)
           else .error (.dataError, w))
        else .error (.platformUnavailable, w) := by
  simp only [getEncryptionKey, lsGetItem, hs, if_true, hslot]
  rw [if_neg hne]
  cases hat : atobO s with
  | none => simp [atobE, hat]
  | some kb => simp [atobE, hat, importKeyRaw]

theorem getKey_store_frame (w : World) (n : String) (hn : n ≠ ENCRYPTION_KEY_NAME) :
    (finalWorld (getEncryptionKey w)).store n = w.store n := by
  cases hs : w.storageOk with
  | false => rw [getKey_noStorage w hs]; rfl
  | true =>
    cases hslot : w.store ENCRYPTION_KEY_NAME with
    | some s =>
      by_cases hse : s = ""
      · subst hse
        cases hc : w.cryptoOk with
        | false => rw [getKey_empty_noCrypto w hs hc hslot]; rfl
        | true =>
          rw [getKey_empty w hs hc hslot]
          simp [finalWorld, hn]
      · rw [getKey_some_final w s hs hse hslot]
    | none =>
      cases hc : w.cryptoOk with
      | false => rw [getKey_none_noCrypto w hs hc hslot]; rfl
      | true =>
        rw [getKey_none w hs hc hslot]
        simp [finalWorld, hn]

theorem getKey_slot_mono (w : World) (s : String) (hne : s ≠ "")
    (hslot : w.store ENCRYPTION_KEY_NAME = some s) :
    (finalWorld (getEncryptionKey w)).store ENCRYPTION_KEY_NAME = some s := by
  cases hs : w.storageOk with
  | false => rw [getKey_noStorage w hs]; exact hslot
  | true => rw [getKey_some_final w s hs hne hslot]; exact hslot

theorem getKey_valid_pres (w : World) (hv : validSlot w) :
    validSlot (finalWorld (getEncryptionKey w)) := by
  cases hs : w.storageOk with
  | false => rw [getKey_noStorage w hs]; exact hv
  | true =>
    cases hslot : w.store ENCRYPTION_KEY_NAME with
    | some s =>
      obtain ⟨k, hk, hkb, rfl⟩ := hv s hslot
      have hne : btoa k ≠ "" := btoa_ne_empty k (by intro h; rw [h] at hk; simp at hk)
      rw [getKey_some_final w (btoa k) hs hne hslot]
      exact hv
    | none =>
      cases hc : w.cryptoOk with
      | false => rw [getKey_none_noCrypto w hs hc hslot]; exact hv
      | true =>
        rw [getKey_none w hs hc hslot]
        intro s hsome
        have hsome' : some (btoa (drawBytes w.tape w.pos 32)) = some s := by
          simpa [finalWorld] using hsome
        exact ⟨drawBytes w.tape w.pos 32, drawBytes_length _ _ _, drawBytes_lt _ _ _,
          (Option.some.injEq _ _ ▸ hsome').symm⟩

theorem getKey_filled (w : World) (hs : w.storageOk = true) (hc : w.cryptoOk = true)
    (hv : validSlot w) :
    ∃ k, k.length = 32 ∧ (∀ b ∈ k, b < 256) ∧
      (finalWorld (getEncryptionKey w)).store ENCRYPTION_KEY_NAME = some (btoa k) := by
  obtain ⟨key, w₁, hkey, hk, hkb, -, -, hslot₁, -⟩ := getKey_ok w hs hc hv
  rw [hkey]
  exact ⟨key, hk, hkb, hslot₁⟩

theorem encrypt_finalStore (A : SubtleAES) (T : TextCodec) (p : String) (w : World)
    (hp : p ≠ "") :
    (finalWorld (encrypt A T p w)).store = (finalWorld (getEncryptionKey w)).store := by
  cases hgk : getEncryptionKey w with
  | error e =>
    obtain ⟨e', w'⟩ := e
    simp [encrypt, if_neg hp, hgk, finalWorld]
  | ok v =>
    obtain ⟨key, w₁⟩ := v
    cases hc : w₁.cryptoOk with
    | false => simp [encrypt, if_neg hp, hgk, getRandomValues, hc, finalWorld]
    | true => simp [encrypt, if_neg hp, hgk, getRandomValues, hc, subtleEncrypt, finalWorld]

theorem decrypt_finalStore (A : SubtleAES) (T : TextCodec) (c : String) (w : World)
    (hcne : c ≠ "") :
    ((decrypt A T c w).2).store = (finalWorld (getEncryptionKey w)).store := by
  cases hgk : getEncryptionKey w with
  | error e =>
    obtain ⟨e', w'⟩ := e
    simp [decrypt, if_neg hcne, decryptTry, hgk, finalWorld]
  | ok v =>
    obtain ⟨key, w₁⟩ := v
    cases hat : atobO c with
    | none => simp [decrypt, if_neg hcne, decryptTry, hgk, atobE, hat, finalWorld]
    | some bs =>
      cases hc : w₁.cryptoOk with
      | false =>
        simp [decrypt, if_neg hcne, decryptTry, hgk, atobE, hat, subtleDecrypt, hc,
          finalWorld]
      | true =>
        cases hdec : A.dec key (bs.take 12) (bs.drop 12) with
        | none =>
          simp [decrypt, if_neg hcne, decryptTry, hgk, atobE, hat, subtleDecrypt, hc,
            hdec, finalWorld]
        | some pt =>
          simp [decrypt, if_neg hcne, decryptTry, hgk, atobE, hat, subtleDecrypt, hc,
            hdec, finalWorld]

theorem getKey_read_frame (w₁ w₂ : World)
    (hslot : w₁.store ENCRYPTION_KEY_NAME = w₂.store ENCRYPTION_KEY_NAME)
    (htape : w₁.tape = w₂.tape) (hpos : w₁.pos = w₂.pos)
    (hso : w₁.storageOk = w₂.storageOk) (hco : w₁.cryptoOk = w₂.cryptoOk) :
    resultVal (getEncryptionKey w₁) = resultVal (getEncryptionKey w₂) := by
  cases hs : w₂.storageOk with
  | false =>
    rw [getKey_noStorage w₂ hs, getKey_noStorage w₁ (by rw [hso, hs])]
    rfl
  | true =>
    cases hslot₂ : w₂.store ENCRYPTION_KEY_NAME with
    | some s =>
      by_cases hse : s = ""
      · subst hse
        cases hc : w₂.cryptoOk with
        | false =>
          rw [getKey_empty_noCrypto w₂ hs hc hslot₂, getKey_empty_noCrypto w₁
            (by rw [hso, hs]) (by rw [hco, hc]) (by rw [hslot, hslot₂])]
          rfl
        | true =>
          rw [getKey_empty w₂ hs hc hslot₂, getKey_empty w₁
            (by rw [hso, hs]) (by rw [hco, hc]) (by rw [hslot, hslot₂])]
          simp [resultVal, htape, hpos]
      · rw [getKey_some_eq w₂ s hs hse hslot₂,
          getKey_some_eq w₁ s (by rw [hso, hs]) hse (by rw [hslot, hslot₂])]
        cases hat : atobO s with
        | none => rfl
        | some kb =>
          cases hc : w₂.cryptoOk with
          | false => simp [hco, hc, resultVal]
          | true =>
            by_cases hl : kb.length = 16 ∨ kb.length = 24 ∨ kb.length = 32
            · simp [hco, hc, hl, resultVal]
            · simp [hco, hc, hl, resultVal]
    | none =>
      cases hc : w₂.cryptoOk with
      | false =>
        rw [getKey_none_noCrypto w₂ hs hc hslot₂, getKey_none_noCrypto w₁
          (by rw [hso, hs]) (by rw [hco, hc]) (by rw [hslot, hslot₂])]
        rfl
      | true =>
        rw [getKey_none w₂ hs hc hslot₂, getKey_none w₁
          (by rw [hso, hs]) (by rw [hco, hc]) (by rw [hslot, hslot₂])]
        simp [resultVal, htape, hpos]

theorem encrypt_read_frame (A : SubtleAES) (T : TextCodec) (p : String) (w₁ w₂ : World)
    (hslot : w₁.store ENCRYPTION_KEY_NAME = w₂.store ENCRYPTION_KEY_NAME)
    (htape : w₁.tape = w₂.tape) (hpos : w₁.pos = w₂.pos)
    (hso : w₁.storageOk = w₂.storageOk) (hco : w₁.cryptoOk = w₂.cryptoOk) :
    resultVal (encrypt A T p w₁) = resultVal (encrypt A T p w₂) := by
  by_cases hp : p = ""
  · subst hp; rfl
  · simp only [encrypt, if_neg hp]
    cases hs : w₂.storageOk with
    | false =>
      rw [getKey_noStorage w₂ hs, getKey_noStorage w₁ (by rw [hso, hs])]
      rfl
    | true =>
      cases hslot₂ : w₂.store ENCRYPTION_KEY_NAME with
      | some s =>
        by_cases hse : s = ""
        · subst hse
          cases hc : w₂.cryptoOk with
          | false =>
            rw [getKey_empty_noCrypto w₂ hs hc hslot₂, getKey_empty_noCrypto w₁
              (by rw [hso, hs]) (by rw [hco, hc]) (by rw [hslot, hslot₂])]
            rfl
          | true =>
            rw [getKey_empty w₂ hs hc hslot₂, getKey_empty w₁
              (by rw [hso, hs]) (by rw [hco, hc]) (by rw [hslot, hslot₂])]
            simp [getRandomValues, subtleEncrypt, hco, hc, resultVal, htape, hpos]
        · rw [getKey_some_eq w₂ s hs hse hslot₂,
            getKey_some_eq w₁ s (by rw [hso, hs]) hse (by rw [hslot, hslot₂])]
          cases hat : atobO s with
          | none => rfl
          | some kb =>
            cases hc : w₂.cryptoOk with
            | false => simp [hco, hc, resultVal]
            | true =>
              by_cases hl : kb.length = 16 ∨ kb.length = 24 ∨ kb.length = 32
              · simp [hco, hc, hl, getRandomValues, subtleEncrypt, resultVal, htape, hpos]
              · simp [hco, hc, hl, resultVal]
      | none =>
        cases hc : w₂.cryptoOk with
        | false =>
          rw [getKey_none_noCrypto w₂ hs hc hslot₂, getKey_none_noCrypto w₁
            (by rw [hso, hs]) (by rw [hco, hc]) (by rw [hslot, hslot₂])]
          rfl
        | true =>
          rw [getKey_none w₂ hs hc hslot₂, getKey_none w₁
            (by rw [hso, hs]) (by rw [hco, hc]) (by rw [hslot, hslot₂])]
          simp [getRandomValues, subtleEncrypt, hco, hc, resultVal, htape, hpos]

theorem decrypt_read_frame (A : SubtleAES) (T : TextCodec) (c : String) (w₁ w₂ : World)
    (hslot : w₁.store ENCRYPTION_KEY_NAME = w₂.store ENCRYPTION_KEY_NAME)
    (htape : w₁.tape = w₂.tape) (hpos : w₁.pos = w₂.pos)
    (hso : w₁.storageOk = w₂.storageOk) (hco : w₁.cryptoOk = w₂.cryptoOk) :
    (decrypt A T c w₁).1 = (decrypt A T c w₂).1 := by
  by_cases hcne : c = ""
  · subst hcne; rfl
  · simp only [decrypt, if_neg hcne, decryptTry]
    cases hs : w₂.storageOk with
    | false =>
      rw [getKey_noStorage w₂ hs, getKey_noStorage w₁ (by rw [hso, hs])]
    | true =>
      cases hslot₂ : w₂.store ENCRYPTION_KEY_NAME with
      | some s =>
        by_cases hse : s = ""
        · subst hse
          cases hc : w₂.cryptoOk with
          | false =>
            rw [getKey_empty_noCrypto w₂ hs hc hslot₂, getKey_empty_noCrypto w₁
              (by rw [hso, hs]) (by rw [hco, hc]) (by rw [hslot, hslot₂])]
          | true =>
            rw [getKey_empty w₂ hs hc hslot₂, getKey_empty w₁
              (by rw [hso, hs]) (by rw [hco, hc]) (by rw [hslot, hslot₂])]
            cases hat2 : atobO c with
            | none => simp [atobE, hat2]
            | some bs =>
              simp only [atobE, hat2, subtleDecrypt, hco, hc, if_true]
              simp only [htape, hpos]
              cases hdec : A.dec (drawBytes w₂.tape w₂.pos 32) (bs.take 12) (bs.drop 12) with
              | none => simp [hdec]
              | some pt => simp [hdec]
        · rw [getKey_some_eq w₂ s hs hse hslot₂,
            getKey_some_eq w₁ s (by rw [hso, hs]) hse (by rw [hslot, hslot₂])]
          cases hat : atobO s with
          | none => rfl
          | some kb =>
            cases hc : w₂.cryptoOk with
            | false => simp [hco, hc]
            | true =>
              by_cases hl : kb.length = 16 ∨ kb.length = 24 ∨ kb.length = 32
              · simp only [hco, hc, hl, if_true]
                cases hat2 : atobO c with
                | none => simp [atobE, hat2]
                | some bs =>
                  simp only [atobE, hat2, subtleDecrypt, hco, hc, if_true]
                  cases hdec : A.dec kb (bs.take 12) (bs.drop 12) with
                  | none => simp [hdec]
                  | some pt => simp [hdec]
              · simp [hco, hc, hl]
      | none =>
        cases hc : w₂.cryptoOk with
        | false =>
          rw [getKey_none_noCrypto w₂ hs hc hslot₂, getKey_none_noCrypto w₁
            (by rw [hso, hs]) (by rw [hco, hc]) (by rw [hslot, hslot₂])]
        | true =>
          rw [getKey_none w₂ hs hc hslot₂, getKey_none w₁
            (by rw [hso, hs]) (by rw [hco, hc]) (by rw [hslot, hslot₂])]
          cases hat2 : atobO c with
          | none => simp [atobE, hat2]
          | some bs =>
            simp only [atobE, hat2, subtleDecrypt, hco, hc, if_true]
            simp only [htape, hpos]
            cases hdec : A.dec (drawBytes w₂.tape w₂.pos 32) (bs.take 12) (bs.drop 12) with
            | none => simp [hdec]
            | some pt => simp [hdec]

/-- C10: storage discipline of the Key Store and Cipher. (i) No durable-storage
name other than 'pm_encryption_key' is ever written by `getEncryptionKey`,
`encrypt` or `decrypt`, whatever the input and platform state; (ii) no other
name is ever read: each operation's outcome is unchanged when every other slot
of the store is replaced arbitrarily; (iii) the slot invariant — empty, or the
base64 encoding of 32-byte raw key material — is preserved by every operation;
(iv) with platform primitives available, after `encrypt` or `decrypt` completes
on non-empty input the slot holds the base64 encoding of a 32-byte raw key; and
(v) once the slot holds a non-empty value, no operation ever modifies it — the
restriction to non-empty values is forced by the source's `if (keyData)`
truthiness test, which treats a stored empty string as absent and overwrites
it (see the counterexample). -/
theorem storage_slot_invariant (A : SubtleAES) (T : TextCodec) (p c : String)
    (w : World) :
    (∀ n, n ≠ ENCRYPTION_KEY_NAME →
      (finalWorld (getEncryptionKey w)).store n = w.store n ∧
      (finalWorld (encrypt A T p w)).store n = w.store n ∧
      ((decrypt A T c w).2).store n = w.store n) ∧
    (∀ g : String → Option String, g ENCRYPTION_KEY_NAME = w.store ENCRYPTION_KEY_NAME →
      resultVal (getEncryptionKey { w with store := g }) =
        resultVal (getEncryptionKey w) ∧
      resultVal (encrypt A T p { w with store := g }) = resultVal (encrypt A T p w) ∧
      (decrypt A T c { w with store := g }).1 = (decrypt A T c w).1) ∧
    (validSlot w →
      validSlot (finalWorld (getEncryptionKey w)) ∧
      validSlot (finalWorld (encrypt A T p w)) ∧
      validSlot ((decrypt A T c w).2)) ∧
    (w.storageOk = true → w.cryptoOk = true → validSlot w →
      (p ≠ "" → ∃ k, k.length = 32 ∧ (∀ b ∈ k, b < 256) ∧
        (finalWorld (encrypt A T p w)).store ENCRYPTION_KEY_NAME = some (btoa k)) ∧
      (c ≠ "" → ∃ k, k.length = 32 ∧ (∀ b ∈ k, b < 256) ∧
        ((decrypt A T c w).2).store ENCRYPTION_KEY_NAME = some (btoa k))) ∧
    (∀ s, s ≠ "" → w.store ENCRYPTION_KEY_NAME = some s →
      (finalWorld (getEncryptionKey w)).store ENCRYPTION_KEY_NAME = some s ∧
      (finalWorld (encrypt A T p w)).store ENCRYPTION_KEY_NAME = some s ∧
      ((decrypt A T c w).2).store ENCRYPTION_KEY_NAME = some s) := by
  have hEmptyE : finalWorld (encrypt A T "" w) = w := by simp [encrypt, finalWorld]
  have hEmptyD : (decrypt A T "" w).2 = w := by simp [decrypt]
  refine ⟨?_, ?_, ?_, ?_, ?_⟩
  · intro n hn
    refine ⟨getKey_store_frame w n hn, ?_, ?_⟩
    · by_cases hp : p = ""
      · subst hp; rw [hEmptyE]
      · rw [congrFun (encrypt_finalStore A T p w hp) n]
        exact getKey_store_frame w n hn
    · by_cases hcne : c = ""
      · subst hcne; rw [hEmptyD]
      · rw [congrFun (decrypt_finalStore A T c w hcne) n]
        exact getKey_store_frame w n hn
  · intro g hg
    have hgs : ({ w with store := g } : World).store ENCRYPTION_KEY_NAME =
        w.store ENCRYPTION_KEY_NAME := by
      rw [show ({ w with store := g } : World).store = g from rfl, hg]
    exact ⟨getKey_read_frame _ w hgs rfl rfl rfl rfl,
      encrypt_read_frame A T p _ w hgs rfl rfl rfl rfl,
      decrypt_read_frame A T c _ w hgs rfl rfl rfl rfl⟩
  · intro hv
    refine ⟨getKey_valid_pres w hv, ?_, ?_⟩
    · by_cases hp : p = ""
      · subst hp; rw [hEmptyE]; exact hv
      · intro s hsX
        rw [congrFun (encrypt_finalStore A T p w hp) ENCRYPTION_KEY_NAME] at hsX
        exact getKey_valid_pres w hv s hsX
    · by_cases hcne : c = ""
      · subst hcne; rw [hEmptyD]; exact hv
      · intro s hsX
        rw [congrFun (decrypt_finalStore A T c w hcne) ENCRYPTION_KEY_NAME] at hsX
        exact getKey_valid_pres w hv s hsX
  · intro hs hc hv
    obtain ⟨k, hk, hkb, hfill⟩ := getKey_filled w hs hc hv
    constructor
    · intro hp
      rw [congrFun (encrypt_finalStore A T p w hp) ENCRYPTION_KEY_NAME]
      exact ⟨k, hk, hkb, hfill⟩
    · intro hcne
      rw [congrFun (decrypt_finalStore A T c w hcne) ENCRYPTION_KEY_NAME]
      exact ⟨k, hk, hkb, hfill⟩
  · intro s hne hslot
    refine ⟨getKey_slot_mono w s hne hslot, ?_, ?_⟩
    · by_cases hp : p = ""
      · subst hp; rw [hEmptyE]; exact hslot
      · rw [congrFun (encrypt_finalStore A T p w hp) ENCRYPTION_KEY_NAME]
        exact getKey_slot_mono w s hne hslot
    · by_cases hcne : c = ""
      · subst hcne; rw [hEmptyD]; exact hslot
      · rw [congrFun (decrypt_finalStore A T c w hcne) ENCRYPTION_KEY_NAME]
        exact getKey_slot_mono w s hne hslot

theorem storage_slot_invariant_witness :
    (finalWorld (encrypt sampleAES sampleCodec "pw" wKeyed)).store "other" =
      wKeyed.store "other" ∧
    (∃ k, k.length = 32 ∧ (∀ b ∈ k, b < 256) ∧
      (finalWorld (encrypt sampleAES sampleCodec "pw" wKeyed)).store
        ENCRYPTION_KEY_NAME = some (btoa k)) := by
  have h := storage_slot_invariant sampleAES sampleCodec "pw" "!" wKeyed
  exact ⟨(h.1 "other" (by decide)).2.1,
    (h.2.2.2.1 rfl rfl validSlot_wKeyed).1 (by decide)⟩

/-- C10 (counterexample): the unrestricted immutability clause — an occupied
slot is never modified — is false of the code: the source's `if (keyData)`
test is falsy on a stored empty string, so the key store takes the generation
path and overwrites the occupied slot with fresh key material. -/
theorem occupied_slot_overwritten :
    wEmptySlot.store ENCRYPTION_KEY_NAME = some "" ∧
    (finalWorld (getEncryptionKey wEmptySlot)).store ENCRYPTION_KEY_NAME ≠ some "" := by
  constructor
  · decide
  · decide

theorem atobO_whitespace_example : atobO "QQ ==" = some [65] := by decide
